import Mathlib

set_option linter.unnecessarySeqFocus false

/-!
Shallow embedding of the role-mutation coalescing queue of
`react_roles.py` (class `ReactRoles`), together with the reaction event
handlers that feed it.  Role identifiers, guild identifiers, user
identifiers, channel identifiers and message identifiers are natural
numbers; Python sets of roles become `Finset Nat`; Python dicts become
association lists with dict semantics (keys are unique in every list the
code ever builds).  The `asyncio` concurrency is embedded as a labelled
transition system: enqueue calls and the two halves of one worker-loop
iteration (the synchronous prefix up to issuing the `mem.edit` call, and
the resumption after the call returns or raises) are the atomic steps,
matching the cooperative scheduler's suspension points.
-/

namespace ReactRoles

/-- Guild data used by the queue: the guild identifier, the identifier of
the implicit default ("everyone") role, and the identifier of the bot
member (`guild.me`). -/
structure Guild where
  id : Nat
  defaultRole : Nat
  meId : Nat
deriving DecidableEq

/-- Member data: the guild the member belongs to and the member's user
identifier.  The member's current role set lives in the platform state,
since the code reads `mem.roles` fresh at apply time. -/
structure Member where
  guild : Guild
  id : Nat
deriving DecidableEq

/-- Partial emoji from a raw reaction event payload: either a custom
emoji (identified by its numeric id) or a unicode emoji (identified by
its name). -/
structure Emoji where
  custom : Bool
  eid : Nat
  name : String
deriving DecidableEq

/-- Cached message: the guild it lives in, its channel id and its own
id. -/
structure Message where
  guild : Guild
  channelId : Nat
  id : Nat
deriving DecidableEq

/-- Exceptions that the embedded code can raise.  `attributeError` is
what Python raises when `add_role_queue` dereferences a `None` member
(`member.guild` on `None`). -/
inductive PyErr where
  | attributeError
deriving DecidableEq

/-- Pending delta for one (guild, user) key: the dict
`{True: set(), False: {member.guild.default_role}, "mem": member}` from
`add_role_queue`.  `toAdd` is the entry at key `True`, `toRemove` the
entry at key `False`, `mem` the entry at key `"mem"`. -/
structure RoleDelta where
  toAdd : Finset Nat
  toRemove : Finset Nat
  mem : Option Member
deriving DecidableEq

/-- Association-list lookup with Python `dict.get` semantics. -/
def aget {κ ν : Type} [DecidableEq κ] : List (κ × ν) → κ → Option ν
  | [], _ => none
  | (k, v) :: t, key => if key = k then some v else aget t key

/-- Association-list store with Python `dict.__setitem__` semantics:
replace the binding if the key is present, append it otherwise. -/
def aset {κ ν : Type} [DecidableEq κ] : List (κ × ν) → κ → ν → List (κ × ν)
  | [], key, v => [(key, v)]
  | (k, w) :: t, key, v => if key = k then (key, v) :: t else (k, w) :: aset t key v

/-- Association-list removal with Python `dict.pop` semantics.  On the
lists the code builds, keys are unique, so removing every binding of the
key coincides with removing the one binding. -/
def adel {κ ν : Type} [DecidableEq κ] : List (κ × ν) → κ → List (κ × ν)
  | [], _ => []
  | (k, w) :: t, key => if key = k then adel t key else (k, w) :: adel t key

/-- Worker-loop control state: `idle` between iterations, `inflight`
while the `await mem.edit(...)` platform call of one iteration is
pending.  The inflight constructor remembers the dequeued key, the
popped delta, the member being edited and the computed target role
set. -/
inductive WorkerPhase where
  | idle
  | inflight (key : String) (q : RoleDelta) (mem : Member) (target : Finset Nat)
deriving DecidableEq

/-- Full system state: the cog's mutable attributes (`role_map`,
`role_queue`, `message_cache`, the flattened `role_cache`, `links`), the
platform's view of member role sets, the observable platform calls
(member edits and reaction re-adds), the worker phase, whether the
worker loop has died to an uncaught exception, the log lines written via
the cog's logger, and the tracebacks printed by the handler-boundary
`except` blocks. -/
structure SysState where
  roleMap : List (String × RoleDelta)
  roleQueue : List String
  platformRoles : List ((Nat × Nat) × Finset Nat)
  editCalls : List (Member × Finset Nat)
  reactionCalls : List (Nat × Nat × Emoji)
  messageCache : List (String × Message)
  roleCache : List ((Nat × Nat × Nat × String) × Nat)
  links : List ((Nat × String) × Finset Nat)
  resolvable : List (Nat × Nat)
  worker : WorkerPhase
  workerCrashed : Bool
  logs : List String
  tracebacks : List PyErr
deriving DecidableEq

/-- Key under which a member's pending delta is stored: the string
built from the guild id and the member id joined by an underscore. -/
def keyOf (m : Member) : String := toString m.guild.id ++ "_" ++ toString m.id

/-- Current roles of a member as the worker reads them (`mem.roles`),
looked up fresh in the platform state. -/
def memRoles (st : SysState) (m : Member) : Finset Nat :=
  (aget st.platformRoles (m.guild.id, m.id)).getD ∅

/-- Delta created on first enqueue for a key:
`{True: set(), False: {member.guild.default_role}, "mem": member}`. -/
def initDelta (m : Member) : RoleDelta :=
  { toAdd := ∅, toRemove := {m.guild.defaultRole}, mem := some m }

/-- Merge step of `add_role_queue` (lines 408-411): evict the linked
roles from `toAdd` and put them in `toRemove`, then evict `role` from
the opposite-direction set and insert it in the direction given by
`add_bool`. -/
def mergeDelta (q : RoleDelta) (role : Nat) (addBool : Bool) (linked : Finset Nat) : RoleDelta :=
  let a1 := q.toAdd \ linked
  let r1 := q.toRemove ∪ linked
  let a2 := if addBool then a1 else a1 \ {role}
  let r2 := if addBool then r1 \ {role} else r1
  let a3 := if addBool then a2 ∪ {role} else a2
  let r3 := if addBool then r2 else r2 ∪ {role}
  { toAdd := a3, toRemove := r3, mem := q.mem }

/-- The body of `add_role_queue` for a non-`None` member: look up or
create the delta for the key (pushing the key onto the dispatch queue
exactly when the delta is created), merge the new role/direction/linked
information into it, and store it back. -/
def addRoleQueueCore (m : Member) (role : Nat) (addBool : Bool) (linked : Finset Nat)
    (st : SysState) : SysState :=
  let key := keyOf m
  match aget st.roleMap key with
  | none =>
      let q := mergeDelta (initDelta m) role addBool linked
      { st with roleQueue := st.roleQueue ++ [key], roleMap := aset st.roleMap key q }
  | some q0 =>
      let q := mergeDelta q0 role addBool linked
      { st with roleMap := aset st.roleMap key q }

/-- Full `add_role_queue`, taking the member as Python receives it: a
possibly-`None` value.  With `None` the very first line
(`member.guild.id`) raises `AttributeError`. -/
def addRoleQueue (member : Option Member) (role : Nat) (addBool : Bool) (linked : Finset Nat)
    (st : SysState) : Except PyErr SysState :=
  match member with
  | none => .error .attributeError
  | some m => .ok (addRoleQueueCore m role addBool linked st)

/-- Synchronous prefix of one `process_role_queue` iteration (lines
418-427): take the next key from the queue, pop its delta from the map
(`dict.pop` raises `KeyError` when the key is missing, which kills the
worker loop: `workerCrashed`), skip silently when the stored member is
`None`, otherwise compute the target role set from the member's current
roles and issue the `mem.edit` call, which suspends the worker. -/
def workerBegin (st : SysState) : SysState :=
  if st.workerCrashed then st else
  match st.worker with
  | .inflight _ _ _ _ => st
  | .idle =>
    match st.roleQueue with
    | [] => st
    | key :: rest =>
      match aget st.roleMap key with
      | none => { st with roleQueue := rest, workerCrashed := true }
      | some q =>
        match q.mem with
        | none => { st with roleQueue := rest, roleMap := adel st.roleMap key }
        | some mem =>
          let allRoles := memRoles st mem
          let target := (allRoles ∪ q.toAdd) \ q.toRemove
          { st with roleQueue := rest, roleMap := adel st.roleMap key,
                    worker := .inflight key q mem target,
                    editCalls := st.editCalls ++ [(mem, target)] }

/-- Resumption of a `process_role_queue` iteration after the `mem.edit`
call returns (lines 428-432): on success the platform has replaced the
member's role set with the target; on `Forbidden`/`HTTPException` the
delta is stored back unchanged and the key re-pushed to the back of the
dispatch queue. -/
def workerFinish (success : Bool) (st : SysState) : SysState :=
  match st.worker with
  | .idle => st
  | .inflight key q mem target =>
    if success then
      { st with worker := .idle,
                platformRoles := aset st.platformRoles (mem.guild.id, mem.id) target }
    else
      { st with worker := .idle,
                roleMap := aset st.roleMap key q,
                roleQueue := st.roleQueue ++ [key] }

/-- Atomic steps of the transition system: an `add_role_queue` call for
a member (these run in event-handler tasks and contain no suspension
point that yields to the worker mid-call), the synchronous start of a
worker iteration, and the completion of the in-flight edit with the
given success outcome. -/
inductive Act where
  | enq (m : Member) (role : Nat) (addBool : Bool) (linked : Finset Nat)
  | wBegin
  | wFinish (success : Bool)
deriving DecidableEq

/-- Interpretation of one atomic step. -/
def step (a : Act) (st : SysState) : SysState :=
  match a with
  | .enq m role addBool linked => addRoleQueueCore m role addBool linked st
  | .wBegin => workerBegin st
  | .wFinish success => workerFinish success st

/-- Run a list of atomic steps in order. -/
def run (acts : List Act) (st : SysState) : SysState :=
  acts.foldl (fun s a => step a s) st

/-- Initial state of the cog right after `__init__`: empty delta map and
dispatch queue, idle worker, no observed platform calls, with the given
platform role sets (and empty caches, which the queue never reads). -/
def initState (pf : List ((Nat × Nat) × Finset Nat)) : SysState :=
  { roleMap := [], roleQueue := [], platformRoles := pf, editCalls := [],
    reactionCalls := [], messageCache := [], roleCache := [], links := [],
    resolvable := [], worker := .idle, workerCrashed := false, logs := [],
    tracebacks := [] }

/-- One enqueue event for a fixed subject: the role, the direction and
the linked-role set passed to `add_role_queue`. -/
structure Ev where
  role : Nat
  add : Bool
  linked : Finset Nat
deriving DecidableEq

/-- Merge one event into a delta. -/
def mergeEv (q : RoleDelta) (e : Ev) : RoleDelta := mergeDelta q e.role e.add e.linked

/-- Delta accumulated by a nonempty sequence of enqueue events for one
member, starting from the freshly created delta. -/
def mergedDelta (m : Member) (evs : List Ev) : RoleDelta :=
  evs.foldl mergeEv (initDelta m)

/-- The enqueue actions corresponding to a list of events for one
member. -/
def enqActs (m : Member) (evs : List Ev) : List Act :=
  evs.map (fun e => .enq m e.role e.add e.linked)

/-- Modelled from the spec: the net effect of applying one delta, in the
spec's sense, to a role set — drop the linked roles, then add or remove
the single role.  This is the comparison semantics for the spec's
"net effect of applying all N deltas in arrival order"; it is not read
off the source. -/
def applyEv (s : Finset Nat) (e : Ev) : Finset Nat :=
  if e.add then (s \ e.linked) ∪ {e.role} else (s \ e.linked) \ {e.role}

/-- Modelled from the spec: net effect of a sequence of deltas in
arrival order. -/
def netEffect (s : Finset Nat) (evs : List Ev) : Finset Nat :=
  evs.foldl applyEv s

/-- Target role set the worker computes for the delta accumulated from
`evs`, against the platform state `pf`:
`(set(mem.roles) | q[True]) - q[False]`. -/
def targetOf (pf : List ((Nat × Nat) × Finset Nat)) (m : Member) (evs : List Ev) : Finset Nat :=
  (memRoles (initState pf) m ∪ (mergedDelta m evs).toAdd) \ (mergedDelta m evs).toRemove

/-- Key of the message cache: channel id and message id joined by an
underscore. -/
def msgKey (channelId messageId : Nat) : String :=
  toString channelId ++ "_" ++ toString messageId

/-- Embeds `get_from_message_cache`. -/
def getFromMessageCache (channelId messageId : Nat) (st : SysState) : Option Message :=
  aget st.messageCache (msgKey channelId messageId)

/-- Embeds `get_from_cache`: the chain of nested dict lookups on
`role_cache`, flattened to one lookup on the 4-tuple of keys. -/
def getFromCache (serverId channelId messageId : Nat) (emojiStr : String)
    (st : SysState) : Option Nat :=
  aget st.roleCache (serverId, channelId, messageId, emojiStr)

/-- Embeds `get_link`: `links.get(server_id, {}).get(channel_message, set())`. -/
def getLink (serverId channelId messageId : Nat) (st : SysState) : Finset Nat :=
  (aget st.links (serverId, msgKey channelId messageId)).getD ∅

/-- Embeds `guild.get_member(user_id)`: resolves iff the (guild, user)
pair is in the platform's member directory. -/
def getMember (guild : Guild) (userId : Nat) (st : SysState) : Option Member :=
  if (guild.id, userId) ∈ st.resolvable then some { guild := guild, id := userId } else none

/-- String identity of an emoji as the handlers compute it:
`str(emoji.id) if emoji.is_custom_emoji() else emoji.name`. -/
def emojiStr (e : Emoji) : String :=
  if e.custom then toString e.eid else e.name

/-- Embeds `check_add_role`: on a cached message, resolve the bound role
and the member; when the member exists, is not the bot, and a role is
bound, enqueue an add-delta with the message's linked roles. -/
def checkAddRole (emoji : Emoji) (messageId channelId userId : Nat)
    (st : SysState) : Except PyErr SysState :=
  match getFromMessageCache channelId messageId st with
  | none => .ok st
  | some message =>
    let guild := message.guild
    let role := getFromCache guild.id channelId messageId (emojiStr emoji) st
    let member := getMember guild userId st
    match member, role with
    | some m, some r =>
      if m.id ≠ guild.meId then
        addRoleQueue (some m) r true (getLink guild.id channelId messageId st) st
      else .ok st
    | _, _ => .ok st

/-- Embeds `check_remove_role`: on a cached message, if the reaction's
user is the bot itself, re-add the reaction; otherwise resolve the bound
role and, when one exists, enqueue a remove-delta for the (possibly
unresolvable, hence `Option`) member with the default empty linked
set. -/
def checkRemoveRole (emoji : Emoji) (messageId channelId userId : Nat)
    (st : SysState) : Except PyErr SysState :=
  match getFromMessageCache channelId messageId st with
  | none => .ok st
  | some message =>
    let guild := message.guild
    if userId = guild.meId then
      .ok { st with reactionCalls := st.reactionCalls ++ [(message.channelId, message.id, emoji)] }
    else
      let member := getMember guild userId st
      match getFromCache guild.id channelId messageId (emojiStr emoji) st with
      | some r => addRoleQueue member r false ∅ st
      | none => .ok st

/-- Embeds `on_raw_reaction_add`: the whole body runs under a bare
`except` that prints the traceback, so every exception from
`check_add_role` is absorbed at the handler boundary. -/
def onRawReactionAdd (emoji : Emoji) (messageId channelId userId : Nat)
    (st : SysState) : SysState :=
  match checkAddRole emoji messageId channelId userId st with
  | .ok s => s
  | .error e => { st with tracebacks := st.tracebacks ++ [e] }

/-- Embeds `on_raw_reaction_remove`, with the same handler-boundary
`except` block as `on_raw_reaction_add`. -/
def onRawReactionRemove (emoji : Emoji) (messageId channelId userId : Nat)
    (st : SysState) : SysState :=
  match checkRemoveRole emoji messageId channelId userId st with
  | .ok s => s
  | .error e => { st with tracebacks := st.tracebacks ++ [e] }

/-- Coalesced step used to state the amended C5 invariant: either an
`add_role_queue` call, or one whole worker iteration (its synchronous
prefix immediately followed by the outcome of its edit call), so that no
enqueue interleaves with an in-flight edit. -/
inductive CAct where
  | cenq (m : Member) (role : Nat) (addBool : Bool) (linked : Finset Nat)
  | citer (success : Bool)
deriving DecidableEq

/-- Interpretation of a coalesced step in terms of the primitive
steps. -/
def stepC (st : SysState) (a : CAct) : SysState :=
  match a with
  | .cenq m role addBool linked => addRoleQueueCore m role addBool linked st
  | .citer success => workerFinish success (workerBegin st)

/-- Run a list of coalesced steps in order. -/
def runC (acts : List CAct) (st : SysState) : SysState :=
  acts.foldl stepC st

/-- Predicate (as a boolean, for decidability in witnesses) on actions
used by the amended C2: the action, if an enqueue, is an enqueue for
member `m` that does not ask to add `m`'s guild's default role. -/
def enqOK (m : Member) : Act → Bool
  | .enq mm r b _ => decide (mm = m) && (!b || decide (r ≠ m.guild.defaultRole))
  | _ => true

/-- Concrete member used by witnesses and counterexamples: member 2 of
guild 1, whose default role is 0 and whose bot member is 99. -/
def mW : Member := { guild := { id := 1, defaultRole := 0, meId := 99 }, id := 2 }

/-- Concrete platform state for witnesses: member `mW` currently holds
only the default role 0. -/
def pfW : List ((Nat × Nat) × Finset Nat) := [((1, 2), {0})]

/-- Invariant behind the amended C2: every pending delta (in the map or
in flight) keeps the default role of `m` in its `toRemove`, and no
recorded edit call's target contains it. -/
def defaultInv (m : Member) (st : SysState) : Prop :=
  (∀ p ∈ st.roleMap, m.guild.defaultRole ∈ p.2.toRemove)
  ∧ (∀ key q mem target, st.worker = .inflight key q mem target →
      m.guild.defaultRole ∈ q.toRemove)
  ∧ (∀ c ∈ st.editCalls, m.guild.defaultRole ∉ c.2)

/-- Invariant behind C6: every pending delta, in the map or in flight,
has disjoint `toAdd` and `toRemove`. -/
def disjInv (st : SysState) : Prop :=
  (∀ p ∈ st.roleMap, p.2.toAdd ∩ p.2.toRemove = ∅)
  ∧ (∀ key q mem target, st.worker = .inflight key q mem target →
      q.toAdd ∩ q.toRemove = ∅)

/-- Invariant behind the amended C5, over states between coalesced
steps: the worker is idle, alive, and every key occurs in the dispatch
queue exactly once if its delta is pending and never otherwise. -/
def queueInv (st : SysState) : Prop :=
  st.worker = WorkerPhase.idle ∧ st.workerCrashed = false
  ∧ ∀ k : String, st.roleQueue.count k = (if (aget st.roleMap k).isSome then 1 else 0)

/-- Concrete state for C7: the dispatch queue holds the key of member
(1, 2) but the stored delta has no member. -/
def stMissing : SysState :=
  { initState pfW with
    roleMap := [("1_2", { toAdd := ∅, toRemove := {0}, mem := none })],
    roleQueue := ["1_2"] }

/-- Concrete emoji for event-layer witnesses: the unicode emoji named
heart. -/
def emW : Emoji := { custom := false, eid := 0, name := "heart" }

/-- Concrete cached message for event-layer witnesses: message 20 of
channel 10 in `mW`'s guild. -/
def msgW : Message := { guild := mW.guild, channelId := 10, id := 20 }

/-- Concrete state for C10: the message cache holds `msgW`. -/
def stMsg : SysState :=
  { initState pfW with messageCache := [("10_20", msgW)] }

/-- Concrete state for the C9 witness: `msgW` is cached and the heart
emoji is bound to role 5, but no member is resolvable, so the remove
path raises inside `add_role_queue`. -/
def stErr : SysState :=
  { initState pfW with
    messageCache := [("10_20", msgW)],
    roleCache := [((1, 10, 20, "heart"), 5)] }

/-! ### Association-list lemmas -/

theorem aget_aset_self {κ ν : Type} [DecidableEq κ] (l : List (κ × ν)) (k : κ) (v : ν) :
    aget (aset l k v) k = some v := by
  induction l with
  | nil => simp [aget, aset]
  | cons p t ih =>
    obtain ⟨a, b⟩ := p
    by_cases h : k = a
    · simp [aget, aset, h]
    · simp [aget, aset, h, ih]

theorem aget_aset_ne {κ ν : Type} [DecidableEq κ] (l : List (κ × ν)) (k : κ) (v : ν)
    (k' : κ) (h : k' ≠ k) : aget (aset l k v) k' = aget l k' := by
  induction l with
  | nil => simp [aget, aset, h]
  | cons p t ih =>
    obtain ⟨a, b⟩ := p
    by_cases hk : k = a
    · subst hk
      simp [aget, aset, h]
    · by_cases hk' : k' = a <;> simp [aget, aset, hk, hk', ih]

theorem aget_adel_self {κ ν : Type} [DecidableEq κ] (l : List (κ × ν)) (k : κ) :
    aget (adel l k) k = none := by
  induction l with
  | nil => simp [aget, adel]
  | cons p t ih =>
    obtain ⟨a, b⟩ := p
    by_cases h : k = a
    · subst h
      simp [adel, ih]
    · simp [aget, adel, h, ih]

theorem aget_adel_ne {κ ν : Type} [DecidableEq κ] (l : List (κ × ν)) (k : κ)
    (k' : κ) (h : k' ≠ k) : aget (adel l k) k' = aget l k' := by
  induction l with
  | nil => simp [aget, adel]
  | cons p t ih =>
    obtain ⟨a, b⟩ := p
    by_cases hk : k = a
    · subst hk
      simp [aget, adel, h, ih]
    · by_cases hk' : k' = a <;> simp [aget, adel, hk, hk', ih]

theorem mem_aset {κ ν : Type} [DecidableEq κ] (l : List (κ × ν)) (k : κ) (v : ν) :
    ∀ p ∈ aset l k v, p = (k, v) ∨ p ∈ l := by
  induction l with
  | nil => simp [aset]
  | cons q t ih =>
    obtain ⟨a, b⟩ := q
    by_cases h : k = a
    · subst h
      intro p hp
      simp [aset] at hp
      rcases hp with hp | hp
      · exact Or.inl (by simp [hp])
      · exact Or.inr (by simp [hp])
    · intro p hp
      simp [aset, h] at hp
      rcases hp with hp | hp
      · exact Or.inr (by simp [hp])
      · rcases ih p hp with h1 | h1
        · exact Or.inl h1
        · exact Or.inr (by simp [h1])

theorem mem_adel {κ ν : Type} [DecidableEq κ] (l : List (κ × ν)) (k : κ) :
    ∀ p ∈ adel l k, p ∈ l := by
  induction l with
  | nil => simp [adel]
  | cons q t ih =>
    obtain ⟨a, b⟩ := q
    by_cases h : k = a
    · subst h
      intro p hp
      simp [adel] at hp
      exact List.mem_cons_of_mem _ (ih p hp)
    · intro p hp
      simp [adel, h] at hp
      rcases hp with hp | hp
      · simp [hp]
      · exact List.mem_cons_of_mem _ (ih p hp)

theorem aget_mem {κ ν : Type} [DecidableEq κ] (l : List (κ × ν)) (k : κ) (v : ν)
    (h : aget l k = some v) : (k, v) ∈ l := by
  induction l with
  | nil => simp [aget] at h
  | cons q t ih =>
    obtain ⟨a, b⟩ := q
    by_cases hk : k = a
    · subst hk
      simp [aget] at h
      simp [h]
    · simp [aget, hk] at h
      exact List.mem_cons_of_mem _ (ih h)

/-! ### Run lemmas -/

theorem run_nil (st : SysState) : run [] st = st := rfl

theorem run_cons (a : Act) (acts : List Act) (st : SysState) :
    run (a :: acts) st = run acts (step a st) := rfl

theorem run_append (xs ys : List Act) (st : SysState) :
    run (xs ++ ys) st = run ys (run xs st) := by
  simp [run, List.foldl_append]

/-! ### Merge lemmas -/

theorem mergeDelta_mem (q : RoleDelta) (role : Nat) (addBool : Bool) (linked : Finset Nat) :
    (mergeDelta q role addBool linked).mem = q.mem := by
  cases addBool <;> simp [mergeDelta]

theorem mergedDelta_mem (m : Member) (evs : List Ev) :
    (mergedDelta m evs).mem = some m := by
  suffices h : ∀ (q : RoleDelta), (evs.foldl mergeEv q).mem = q.mem by
    simpa [mergedDelta, initDelta] using h (initDelta m)
  induction evs with
  | nil => intro q; rfl
  | cons e t ih => intro q; simpa [mergeEv, mergeDelta_mem] using ih (mergeEv q e)

theorem mergeDelta_target (q : RoleDelta) (s : Finset Nat) (e : Ev) :
    (s ∪ (mergeEv q e).toAdd) \ (mergeEv q e).toRemove
      = applyEv ((s ∪ q.toAdd) \ q.toRemove) e := by
  cases hb : e.add <;>
    · simp only [mergeEv, mergeDelta, applyEv, hb, if_true, if_false,
        Bool.false_eq_true]
      ext x
      by_cases hx : x = e.role <;>
        simp [Finset.mem_union, Finset.mem_sdiff, Finset.mem_singleton, hx] <;> tauto

theorem mergeDelta_disjoint (q : RoleDelta) (role : Nat) (addBool : Bool)
    (linked : Finset Nat) (h : q.toAdd ∩ q.toRemove = ∅) :
    (mergeDelta q role addBool linked).toAdd ∩ (mergeDelta q role addBool linked).toRemove
      = ∅ := by
  rw [Finset.eq_empty_iff_forall_not_mem] at h ⊢
  intro x
  have hx := h x
  cases addBool <;>
    · simp only [mergeDelta, if_true, if_false, Bool.false_eq_true]
      by_cases hr : x = role <;>
        simp only [Finset.mem_inter, Finset.mem_union, Finset.mem_sdiff,
          Finset.mem_singleton, hr] at hx ⊢ <;> tauto

theorem mergeDelta_default (q : RoleDelta) (role : Nat) (addBool : Bool)
    (linked : Finset Nat) (d : Nat) (hd : d ∈ q.toRemove)
    (hr : addBool = true → role ≠ d) : d ∈ (mergeDelta q role addBool linked).toRemove := by
  cases addBool with
  | false => simp [mergeDelta, hd]
  | true =>
    have : role ≠ d := hr rfl
    simp [mergeDelta, hd, Ne.symm this]

/-! ### Enqueue-phase lemmas -/

theorem enq_first (m : Member) (role : Nat) (addBool : Bool) (linked : Finset Nat)
    (st : SysState) (h : st.roleMap = []) :
    addRoleQueueCore m role addBool linked st
      = { st with roleMap := [(keyOf m, mergeDelta (initDelta m) role addBool linked)],
                  roleQueue := st.roleQueue ++ [keyOf m] } := by
  simp [addRoleQueueCore, h, aget, aset]

theorem enq_next (m : Member) (role : Nat) (addBool : Bool) (linked : Finset Nat)
    (st : SysState) (q : RoleDelta) (h : st.roleMap = [(keyOf m, q)]) :
    addRoleQueueCore m role addBool linked st
      = { st with roleMap := [(keyOf m, mergeDelta q role addBool linked)] } := by
  simp [addRoleQueueCore, h, aget, aset]

theorem enq_phase (m : Member) (evs : List Ev) :
    ∀ (st : SysState) (q : RoleDelta), st.roleMap = [(keyOf m, q)] →
    run (enqActs m evs) st = { st with roleMap := [(keyOf m, evs.foldl mergeEv q)] } := by
  induction evs with
  | nil =>
    intro st q h
    simp [enqActs, run_nil, ← h]
  | cons e t ih =>
    intro st q h
    have hstep := enq_next m e.role e.add e.linked st q h
    have hnext := ih { st with roleMap := [(keyOf m, mergeDelta q e.role e.add e.linked)] }
      (mergeDelta q e.role e.add e.linked) rfl
    simp only [enqActs, List.map_cons, run_cons, step] at *
    rw [hstep, hnext]
    simp [mergeEv]

theorem run_enq (m : Member) (evs : List Ev)
    (pf : List ((Nat × Nat) × Finset Nat)) (h : evs ≠ []) :
    run (enqActs m evs) (initState pf)
      = { initState pf with roleMap := [(keyOf m, mergedDelta m evs)],
                            roleQueue := [keyOf m] } := by
  obtain ⟨e, t, rfl⟩ := List.exists_cons_of_ne_nil h
  have h1 : step (.enq m e.role e.add e.linked) (initState pf)
      = { initState pf with
            roleMap := [(keyOf m, mergeDelta (initDelta m) e.role e.add e.linked)],
            roleQueue := [keyOf m] } := by
    simpa [step, initState] using
      enq_first m e.role e.add e.linked (initState pf) rfl
  have h2 := enq_phase m t
    { initState pf with
        roleMap := [(keyOf m, mergeDelta (initDelta m) e.role e.add e.linked)],
        roleQueue := [keyOf m] }
    (mergeDelta (initDelta m) e.role e.add e.linked) rfl
  simp only [enqActs, List.map_cons, run_cons] at *
  rw [h1, h2]
  simp [mergedDelta, mergeEv, enqActs]

/-! ### Coalescing semantics -/

theorem sem_fold (evs : List Ev) :
    ∀ (q : RoleDelta) (s : Finset Nat),
    (s ∪ (evs.foldl mergeEv q).toAdd) \ (evs.foldl mergeEv q).toRemove
      = netEffect ((s ∪ q.toAdd) \ q.toRemove) evs := by
  induction evs with
  | nil => intro q s; simp [netEffect]
  | cons e t ih =>
    intro q s
    have h1 := ih (mergeEv q e) s
    have h2 := mergeDelta_target q s e
    simp only [List.foldl_cons, netEffect] at *
    rw [h1, h2]

theorem merged_target (m : Member) (evs : List Ev) (s : Finset Nat) :
    (s ∪ (mergedDelta m evs).toAdd) \ (mergedDelta m evs).toRemove
      = netEffect (s \ {m.guild.defaultRole}) evs := by
  have h := sem_fold evs (initDelta m) s
  simpa [mergedDelta, initDelta] using h

/-! ### Worker-iteration lemmas -/

theorem iter_begin (pf : List ((Nat × Nat) × Finset Nat)) (m : Member) (evs : List Ev)
    (e : List (Member × Finset Nat)) :
    step Act.wBegin
      { initState pf with roleMap := [(keyOf m, mergedDelta m evs)],
                          roleQueue := [keyOf m], editCalls := e }
      = { initState pf with
          roleMap := [], roleQueue := [],
          editCalls := e ++ [(m, targetOf pf m evs)],
          worker := .inflight (keyOf m) (mergedDelta m evs) m (targetOf pf m evs) } := by
  simp [step, workerBegin, initState, aget, adel, mergedDelta_mem, targetOf, memRoles]

theorem iter_finish_false (pf : List ((Nat × Nat) × Finset Nat)) (m : Member) (evs : List Ev)
    (e : List (Member × Finset Nat)) :
    step (Act.wFinish false)
      { initState pf with
        roleMap := [], roleQueue := [],
        editCalls := e ++ [(m, targetOf pf m evs)],
        worker := .inflight (keyOf m) (mergedDelta m evs) m (targetOf pf m evs) }
      = { initState pf with
          roleMap := [(keyOf m, mergedDelta m evs)],
          roleQueue := [keyOf m], editCalls := e ++ [(m, targetOf pf m evs)] } := by
  simp [step, workerFinish, initState, aset]

theorem iter_finish_true (pf : List ((Nat × Nat) × Finset Nat)) (m : Member) (evs : List Ev)
    (e : List (Member × Finset Nat)) :
    step (Act.wFinish true)
      { initState pf with
        roleMap := [], roleQueue := [],
        editCalls := e ++ [(m, targetOf pf m evs)],
        worker := .inflight (keyOf m) (mergedDelta m evs) m (targetOf pf m evs) }
      = { initState pf with
          roleMap := [], roleQueue := [],
          editCalls := e ++ [(m, targetOf pf m evs)],
          platformRoles := aset pf (m.guild.id, m.id) (targetOf pf m evs) } := by
  simp [step, workerFinish, initState]

theorem run_enq_worker_true (m : Member) (evs : List Ev)
    (pf : List ((Nat × Nat) × Finset Nat)) (h : evs ≠ []) :
    run (enqActs m evs ++ [Act.wBegin, Act.wFinish true]) (initState pf)
      = { initState pf with
          editCalls := [(m, targetOf pf m evs)],
          platformRoles := aset pf (m.guild.id, m.id) (targetOf pf m evs) } := by
  rw [run_append, run_enq m evs pf h]
  show run [Act.wBegin, Act.wFinish true] _ = _
  rw [run_cons, run_cons, run_nil]
  have h1 := iter_begin pf m evs []
  have h2 := iter_finish_true pf m evs []
  simp only [List.nil_append] at h1 h2
  simp only [initState] at h1 h2 ⊢
  rw [h1, h2]

/-! ### Claim theorems -/

/-- Claim C1, counterexample to the literal statement: with current
roles containing only the default role 0 and a single enqueue adding
role 5, the worker makes exactly one edit call, but the role set passed
to it is that one with the default role stripped, not the literal net
effect of the deltas applied to the member's current roles (which keeps
the untouched default role). -/
theorem c1_coalescing_counterexample :
    (run (enqActs mW [⟨5, true, ∅⟩] ++ [Act.wBegin, Act.wFinish true])
        (initState pfW)).editCalls = [(mW, {5})]
    ∧ netEffect (memRoles (initState pfW) mW) [⟨5, true, ∅⟩] = {0, 5}
    ∧ (run (enqActs mW [⟨5, true, ∅⟩] ++ [Act.wBegin, Act.wFinish true])
        (initState pfW)).editCalls
      ≠ [(mW, netEffect (memRoles (initState pfW) mW) [⟨5, true, ∅⟩])] := by
  decide

/-- Claim C1 (amended): for every nonempty sequence of enqueue calls for
the same (guild id, user id) key issued before the worker dequeues that
key, the worker makes exactly one membership-mutator call for that key,
and the role set passed to it equals the net effect of applying all the
deltas in arrival order to the member's current roles with the guild's
default role removed. -/
theorem c1_coalescing_amended (m : Member) (evs : List Ev)
    (pf : List ((Nat × Nat) × Finset Nat)) (h : evs ≠ []) :
    (run (enqActs m evs ++ [Act.wBegin, Act.wFinish true]) (initState pf)).editCalls
      = [(m, netEffect (memRoles (initState pf) m \ {m.guild.defaultRole}) evs)] := by
  rw [run_enq_worker_true m evs pf h]
  simp [targetOf, merged_target]

/-- Witness for the amended C1 at a concrete input. -/
theorem c1_coalescing_witness :
    (run (enqActs mW [⟨5, true, ∅⟩] ++ [Act.wBegin, Act.wFinish true])
        (initState pfW)).editCalls
      = [(mW, netEffect (memRoles (initState pfW) mW \ {mW.guild.defaultRole}) [⟨5, true, ∅⟩])] :=
  c1_coalescing_amended mW [⟨5, true, ∅⟩] pfW (by decide)

/-- Claim C3: when the member-edit call fails, the worker re-stores the
same unmodified delta under its key and re-pushes the key onto the
dispatch queue; with a mutator that fails exactly once and then
succeeds, exactly two mutator calls are observed for that subject and
the member's final role set is the computed target. -/
theorem c3_retry (m : Member) (evs : List Ev)
    (pf : List ((Nat × Nat) × Finset Nat)) (h : evs ≠ []) :
    run (enqActs m evs ++ [Act.wBegin, Act.wFinish false]) (initState pf)
      = { initState pf with
          roleMap := [(keyOf m, mergedDelta m evs)],
          roleQueue := [keyOf m],
          editCalls := [(m, targetOf pf m evs)] }
    ∧ (run (enqActs m evs ++ [Act.wBegin, Act.wFinish false, Act.wBegin, Act.wFinish true])
        (initState pf)).editCalls = [(m, targetOf pf m evs), (m, targetOf pf m evs)]
    ∧ memRoles (run (enqActs m evs
        ++ [Act.wBegin, Act.wFinish false, Act.wBegin, Act.wFinish true]) (initState pf)) m
      = targetOf pf m evs := by
  have hpart1 : run (enqActs m evs ++ [Act.wBegin, Act.wFinish false]) (initState pf)
      = { initState pf with
          roleMap := [(keyOf m, mergedDelta m evs)],
          roleQueue := [keyOf m],
          editCalls := [(m, targetOf pf m evs)] } := by
    rw [run_append, run_enq m evs pf h]
    show run [Act.wBegin, Act.wFinish false] _ = _
    rw [run_cons, run_cons, run_nil]
    have h1 := iter_begin pf m evs []
    have h2 := iter_finish_false pf m evs []
    simp only [List.nil_append] at h1 h2
    simp only [initState] at h1 h2 ⊢
    rw [h1, h2]
  have hsplit : enqActs m evs ++ [Act.wBegin, Act.wFinish false, Act.wBegin, Act.wFinish true]
      = (enqActs m evs ++ [Act.wBegin, Act.wFinish false]) ++ [Act.wBegin, Act.wFinish true] := by
    simp
  have hfull : run (enqActs m evs
        ++ [Act.wBegin, Act.wFinish false, Act.wBegin, Act.wFinish true]) (initState pf)
      = { initState pf with
          roleMap := [], roleQueue := [],
          editCalls := [(m, targetOf pf m evs), (m, targetOf pf m evs)],
          platformRoles := aset pf (m.guild.id, m.id) (targetOf pf m evs) } := by
    rw [hsplit, run_append, hpart1]
    show run [Act.wBegin, Act.wFinish true] _ = _
    rw [run_cons, run_cons, run_nil]
    have h1 := iter_begin pf m evs [(m, targetOf pf m evs)]
    have h2 := iter_finish_true pf m evs [(m, targetOf pf m evs)]
    simp only [initState] at h1 h2 ⊢
    rw [h1, h2]
    simp
  refine ⟨hpart1, ?_, ?_⟩
  · rw [hfull]
  · rw [hfull]
    simp [memRoles, aget_aset_self]

/-- Witness for C3 at a concrete input. -/
theorem c3_retry_witness :
    (run (enqActs mW [⟨5, true, ∅⟩] ++ [Act.wBegin, Act.wFinish false, Act.wBegin,
        Act.wFinish true]) (initState pfW)).editCalls
      = [(mW, targetOf pfW mW [⟨5, true, ∅⟩]), (mW, targetOf pfW mW [⟨5, true, ∅⟩])] :=
  (c3_retry mW [⟨5, true, ∅⟩] pfW (by decide)).2.1

/-- Claim C8: enqueuing add(R) and then remove(R) for the same subject
before the worker processes that subject yields a delta in which `toAdd`
does not contain R and `toRemove` contains R, and the resulting
member-edit call's target role set excludes R. -/
theorem c8_last_writer_wins (m : Member) (r : Nat) (l1 l2 : Finset Nat)
    (pf : List ((Nat × Nat) × Finset Nat)) :
    (∃ q, aget (run (enqActs m [⟨r, true, l1⟩, ⟨r, false, l2⟩]) (initState pf)).roleMap (keyOf m)
        = some q ∧ r ∉ q.toAdd ∧ r ∈ q.toRemove)
    ∧ (run (enqActs m [⟨r, true, l1⟩, ⟨r, false, l2⟩] ++ [Act.wBegin, Act.wFinish true])
        (initState pf)).editCalls = [(m, targetOf pf m [⟨r, true, l1⟩, ⟨r, false, l2⟩])]
    ∧ r ∉ targetOf pf m [⟨r, true, l1⟩, ⟨r, false, l2⟩] := by
  have hne : ([⟨r, true, l1⟩, ⟨r, false, l2⟩] : List Ev) ≠ [] := by simp
  have hrem : r ∈ (mergedDelta m [⟨r, true, l1⟩, ⟨r, false, l2⟩]).toRemove := by
    simp [mergedDelta, mergeEv, mergeDelta]
  refine ⟨⟨mergedDelta m [⟨r, true, l1⟩, ⟨r, false, l2⟩], ?_, ?_, hrem⟩, ?_, ?_⟩
  · rw [run_enq m _ pf hne]
    simp [aget]
  · simp [mergedDelta, mergeEv, mergeDelta]
  · rw [run_enq_worker_true m _ pf hne]
  · simp [targetOf, Finset.mem_sdiff, hrem]

/-- Claim C4, counterexample to the literal statement: with a pending
delta from a prior enqueue of role 7, enqueuing role 5 with linked roles
1 and 2 (none of 5, 1, 2 previously present) yields `toAdd = {7, 5}`,
not `toAdd = {5}` — the prior role survives the merge. -/
theorem c4_mutual_exclusion_counterexample :
    aget (addRoleQueueCore mW 7 true ∅ (initState pfW)).roleMap (keyOf mW)
      = some { toAdd := {7}, toRemove := {0}, mem := some mW }
    ∧ ((5 : Nat) ∉ ({7} : Finset Nat) ∧ (5 : Nat) ∉ ({0} : Finset Nat)
      ∧ (1 : Nat) ∉ ({7} : Finset Nat) ∧ (1 : Nat) ∉ ({0} : Finset Nat)
      ∧ (2 : Nat) ∉ ({7} : Finset Nat) ∧ (2 : Nat) ∉ ({0} : Finset Nat))
    ∧ aget (addRoleQueueCore mW 5 true {1, 2}
          (addRoleQueueCore mW 7 true ∅ (initState pfW))).roleMap (keyOf mW)
      = some { toAdd := {7, 5}, toRemove := {0, 1, 2}, mem := some mW }
    ∧ ({7, 5} : Finset Nat) ≠ {5} := by
  decide

/-- Claim C4 (amended): enqueuing role R with linked roles A and B
(R distinct from A and B) merges the delta for the key with
`mergeDelta`; when the prior delta contained none of R, A, B, the new
delta's `toAdd` contains R and neither A nor B (though it may retain
roles from earlier enqueues), its `toRemove` contains both A and B, and
R is not in `toRemove`; and when A was already in `toAdd` from a prior
enqueue in the same merge window, the enqueue moves A from `toAdd` to
`toRemove`. -/
theorem c4_mutual_exclusion_amended (st : SysState) (m : Member) (r a b : Nat)
    (q : RoleDelta) (hq : aget st.roleMap (keyOf m) = some q)
    (hra : r ≠ a) (hrb : r ≠ b) :
    aget (addRoleQueueCore m r true {a, b} st).roleMap (keyOf m)
      = some (mergeDelta q r true {a, b})
    ∧ (r ∉ q.toAdd → r ∉ q.toRemove → a ∉ q.toAdd → a ∉ q.toRemove →
        b ∉ q.toAdd → b ∉ q.toRemove →
        r ∈ (mergeDelta q r true {a, b}).toAdd
        ∧ a ∉ (mergeDelta q r true {a, b}).toAdd
        ∧ b ∉ (mergeDelta q r true {a, b}).toAdd
        ∧ a ∈ (mergeDelta q r true {a, b}).toRemove
        ∧ b ∈ (mergeDelta q r true {a, b}).toRemove
        ∧ r ∉ (mergeDelta q r true {a, b}).toRemove)
    ∧ (a ∈ q.toAdd →
        a ∉ (mergeDelta q r true {a, b}).toAdd
        ∧ a ∈ (mergeDelta q r true {a, b}).toRemove) := by
  refine ⟨?_, ?_, ?_⟩
  · simp [addRoleQueueCore, hq, aget_aset_self]
  · intro _ _ _ _ _ _
    refine ⟨?_, ?_, ?_, ?_, ?_, ?_⟩ <;>
      simp [mergeDelta, Ne.symm hra, Ne.symm hrb, hra, hrb]
  · intro ha
    constructor <;> simp [mergeDelta, Ne.symm hra, hra]

/-- Witness for the amended C4 at concrete inputs: one instance for the
fresh-roles scenario, one for the already-in-toAdd scenario. -/
theorem c4_mutual_exclusion_witness :
    ((5 : Nat) ∈ (mergeDelta ⟨{7}, {0}, some mW⟩ 5 true {1, 2}).toAdd
      ∧ (1 : Nat) ∈ (mergeDelta ⟨{7}, {0}, some mW⟩ 5 true {1, 2}).toRemove)
    ∧ ((1 : Nat) ∉ (mergeDelta ⟨{1}, {0}, some mW⟩ 5 true {1, 2}).toAdd
      ∧ (1 : Nat) ∈ (mergeDelta ⟨{1}, {0}, some mW⟩ 5 true {1, 2}).toRemove) := by
  have h1 := c4_mutual_exclusion_amended (addRoleQueueCore mW 7 true ∅ (initState pfW)) mW 5 1 2
      ⟨{7}, {0}, some mW⟩ (by decide) (by decide) (by decide)
  have h2 := c4_mutual_exclusion_amended (addRoleQueueCore mW 1 true ∅ (initState pfW)) mW 5 1 2
      ⟨{1}, {0}, some mW⟩ (by decide) (by decide) (by decide)
  have h1c := h1.2.1 (by decide) (by decide) (by decide) (by decide) (by decide) (by decide)
  exact ⟨⟨h1c.1, h1c.2.2.2.1⟩, h2.2.2 (by decide)⟩

/-! ### Default-role invariant (C2) -/

theorem defaultInv_step (m : Member) (a : Act) (st : SysState)
    (hok : enqOK m a = true) (h : defaultInv m st) : defaultInv m (step a st) := by
  obtain ⟨hmap, hinf, hcalls⟩ := h
  cases a with
  | enq mm role addBool linked =>
    simp only [enqOK, Bool.and_eq_true, decide_eq_true_eq, Bool.or_eq_true,
      Bool.not_eq_true'] at hok
    obtain ⟨hmm, hor⟩ := hok
    subst hmm
    have hrole : addBool = true → role ≠ mm.guild.defaultRole := by
      intro hb
      rcases hor with hor | hor
      · rw [hb] at hor; cases hor
      · exact hor
    simp only [step, addRoleQueueCore]
    cases hget : aget st.roleMap (keyOf mm) with
    | none =>
      refine ⟨?_, hinf, hcalls⟩
      intro p hp
      rcases mem_aset st.roleMap (keyOf mm) _ p hp with hp | hp
      · subst hp
        exact mergeDelta_default _ _ _ _ _ (by simp [initDelta]) hrole
      · exact hmap p hp
    | some q0 =>
      refine ⟨?_, hinf, hcalls⟩
      intro p hp
      rcases mem_aset st.roleMap (keyOf mm) _ p hp with hp | hp
      · subst hp
        exact mergeDelta_default _ _ _ _ _ (hmap _ (aget_mem _ _ _ hget)) hrole
      · exact hmap p hp
  | wBegin =>
    simp only [step, workerBegin]
    split
    · exact ⟨hmap, hinf, hcalls⟩
    split
    · exact ⟨hmap, hinf, hcalls⟩
    · rename_i hw
      split
      · exact ⟨hmap, hinf, hcalls⟩
      · rename_i key rest hqq
        split
        · exact ⟨hmap, fun k q me tg hfl => hinf k q me tg (by simpa using hfl), hcalls⟩
        · rename_i q hget
          split
          · exact ⟨fun p hp => hmap p (mem_adel _ _ p hp),
              fun k q2 me tg hfl => hinf k q2 me tg (by simpa using hfl), hcalls⟩
          · rename_i mem hqmem
            have hq : m.guild.defaultRole ∈ q.toRemove := hmap _ (aget_mem _ _ _ hget)
            refine ⟨fun p hp => hmap p (mem_adel _ _ p hp), ?_, ?_⟩
            · intro k q2 me tg hfl
              simp only [WorkerPhase.inflight.injEq] at hfl
              obtain ⟨-, h2, -, -⟩ := hfl
              exact h2 ▸ hq
            · intro c hc
              simp only [List.mem_append, List.mem_singleton] at hc
              rcases hc with hc | hc
              · exact hcalls c hc
              · subst hc
                simp [Finset.mem_sdiff, hq]
  | wFinish success =>
    simp only [step, workerFinish]
    split
    · exact ⟨hmap, hinf, hcalls⟩
    · rename_i key q mem target hw
      have hq : m.guild.defaultRole ∈ q.toRemove := hinf key q mem target hw
      split
      · exact ⟨hmap, fun k q2 me tg hfl => by simp at hfl, hcalls⟩
      · refine ⟨?_, fun k q2 me tg hfl => by simp at hfl, hcalls⟩
        intro p hp
        rcases mem_aset st.roleMap key q p hp with hp | hp
        · subst hp
          exact hq
        · exact hmap p hp

theorem defaultInv_run (m : Member) (acts : List Act) :
    ∀ (st : SysState), (∀ a ∈ acts, enqOK m a = true) → defaultInv m st →
    defaultInv m (run acts st) := by
  induction acts with
  | nil => intro st _ h; exact h
  | cons a t ih =>
    intro st hok h
    rw [run_cons]
    exact ih (step a st) (fun b hb => hok b (List.mem_cons_of_mem a hb))
      (defaultInv_step m a st (hok a (List.mem_cons_self a t)) h)

/-- Claim C2, counterexample to the literal statement: enqueuing the
guild's default role 0 itself with the add direction moves it from
`toRemove` to `toAdd`, and the processed delta's target role set then
contains the default role. -/
theorem c2_everyone_safety_counterexample :
    (run [Act.enq mW 0 true ∅, Act.wBegin] (initState pfW)).editCalls = [(mW, {0})]
    ∧ mW.guild.defaultRole ∈ ({0} : Finset Nat) := by
  decide

/-- Claim C2 (amended): for every trace of enqueue calls for member `m`
and worker steps in which no enqueue asks to add the guild's default
role itself, no membership-mutator call's target role set contains the
default role. -/
theorem c2_everyone_safety_amended (m : Member) (acts : List Act)
    (pf : List ((Nat × Nat) × Finset Nat)) (hok : ∀ a ∈ acts, enqOK m a = true) :
    ∀ c ∈ (run acts (initState pf)).editCalls, m.guild.defaultRole ∉ c.2 := by
  have h0 : defaultInv m (initState pf) := by
    refine ⟨?_, ?_, ?_⟩ <;> simp [initState]
  exact (defaultInv_run m acts (initState pf) hok h0).2.2

/-- Witness for the amended C2 at a concrete input. -/
theorem c2_everyone_safety_witness :
    mW.guild.defaultRole ∉ ((mW, ({5} : Finset Nat)) : Member × Finset Nat).2 :=
  c2_everyone_safety_amended mW [Act.enq mW 5 true ∅, Act.wBegin] pfW (by decide)
    (mW, {5}) (by decide)

/-! ### Disjointness invariant (C6) -/

theorem disjInv_step (a : Act) (st : SysState) (h : disjInv st) : disjInv (step a st) := by
  obtain ⟨hmap, hinf⟩ := h
  cases a with
  | enq mm role addBool linked =>
    simp only [step, addRoleQueueCore]
    cases hget : aget st.roleMap (keyOf mm) with
    | none =>
      refine ⟨?_, hinf⟩
      intro p hp
      rcases mem_aset st.roleMap (keyOf mm) _ p hp with hp | hp
      · subst hp
        exact mergeDelta_disjoint _ _ _ _ (by simp [initDelta])
      · exact hmap p hp
    | some q0 =>
      refine ⟨?_, hinf⟩
      intro p hp
      rcases mem_aset st.roleMap (keyOf mm) _ p hp with hp | hp
      · subst hp
        exact mergeDelta_disjoint _ _ _ _ (hmap _ (aget_mem _ _ _ hget))
      · exact hmap p hp
  | wBegin =>
    simp only [step, workerBegin]
    split
    · exact ⟨hmap, hinf⟩
    split
    · exact ⟨hmap, hinf⟩
    · split
      · exact ⟨hmap, hinf⟩
      · rename_i key rest hqq
        split
        · exact ⟨hmap, fun k q me tg hfl => hinf k q me tg (by simpa using hfl)⟩
        · rename_i q hget
          split
          · exact ⟨fun p hp => hmap p (mem_adel _ _ p hp),
              fun k q2 me tg hfl => hinf k q2 me tg (by simpa using hfl)⟩
          · rename_i mem hqmem
            refine ⟨fun p hp => hmap p (mem_adel _ _ p hp), ?_⟩
            intro k q2 me tg hfl
            simp only [WorkerPhase.inflight.injEq] at hfl
            obtain ⟨-, h2, -, -⟩ := hfl
            exact h2 ▸ hmap _ (aget_mem _ _ _ hget)
  | wFinish success =>
    simp only [step, workerFinish]
    split
    · exact ⟨hmap, hinf⟩
    · rename_i key q mem target hw
      have hq := hinf key q mem target hw
      split
      · exact ⟨hmap, fun k q2 me tg hfl => by simp at hfl⟩
      · refine ⟨?_, fun k q2 me tg hfl => by simp at hfl⟩
        intro p hp
        rcases mem_aset st.roleMap key q p hp with hp | hp
        · subst hp
          exact hq
        · exact hmap p hp

theorem disjInv_run (acts : List Act) :
    ∀ (st : SysState), disjInv st → disjInv (run acts st) := by
  induction acts with
  | nil => intro st h; exact h
  | cons a t ih =>
    intro st h
    rw [run_cons]
    exact ih (step a st) (disjInv_step a st h)

/-- Claim C6: in every state reachable by enqueue calls and worker
steps — in particular after every call to `add_role_queue` — every
pending delta has no role identifier in both `toAdd` and `toRemove`. -/
theorem c6_no_role_in_both (acts : List Act) (pf : List ((Nat × Nat) × Finset Nat)) :
    ∀ p ∈ (run acts (initState pf)).roleMap, p.2.toAdd ∩ p.2.toRemove = ∅ := by
  have h0 : disjInv (initState pf) := by
    constructor <;> simp [initState]
  exact (disjInv_run acts (initState pf) h0).1

/-- Witness for C6 at a concrete input. -/
theorem c6_no_role_in_both_witness :
    ((("1_2" : String), (⟨{5}, {0}, some mW⟩ : RoleDelta)) : String × RoleDelta).2.toAdd
      ∩ ((("1_2" : String), (⟨{5}, {0}, some mW⟩ : RoleDelta)) : String × RoleDelta).2.toRemove
      = ∅ :=
  c6_no_role_in_both [Act.enq mW 5 true ∅] pfW ("1_2", ⟨{5}, {0}, some mW⟩) (by decide)

/-! ### Queue-presence invariant (C5) -/

theorem queueInv_stepC (a : CAct) (st : SysState) (h : queueInv st) : queueInv (stepC st a) := by
  obtain ⟨hw, hc, hcount⟩ := h
  cases a with
  | cenq mm role addBool linked =>
    simp only [stepC, addRoleQueueCore]
    cases hget : aget st.roleMap (keyOf mm) with
    | none =>
      refine ⟨hw, hc, ?_⟩
      intro k
      by_cases hk : k = keyOf mm
      · subst hk
        have h0 := hcount (keyOf mm)
        rw [hget] at h0
        simp only [Option.isSome_none, Bool.false_eq_true, if_false] at h0
        simp [List.count_append, h0, aget_aset_self]
      · have h1 := hcount k
        simp [List.count_append, aget_aset_ne _ _ _ _ hk, h1,
          List.count_cons_of_ne hk, List.count_nil]
    | some q0 =>
      refine ⟨hw, hc, ?_⟩
      intro k
      by_cases hk : k = keyOf mm
      · subst hk
        have h0 := hcount (keyOf mm)
        rw [hget] at h0
        simp only [Option.isSome_some, if_true] at h0
        simp [h0, aget_aset_self]
      · simp [aget_aset_ne _ _ _ _ hk, hcount k]
  | citer success =>
    cases hqq : st.roleQueue with
    | nil =>
      have hb : workerBegin st = st := by
        simp [workerBegin, hc, hw, hqq]
      have hf : workerFinish success st = st := by
        simp [workerFinish, hw]
      simp only [stepC, hb, hf]
      exact ⟨hw, hc, hcount⟩
    | cons key rest =>
      have h1 := hcount key
      rw [hqq, List.count_cons_self] at h1
      have hsome : (aget st.roleMap key).isSome = true := by
        by_contra hns
        simp only [Bool.not_eq_true] at hns
        rw [hns] at h1
        simp at h1
      obtain ⟨q, hget⟩ := Option.isSome_iff_exists.mp hsome
      have hrest0 : rest.count key = 0 := by
        rw [hget] at h1
        simpa using h1
      have hother : ∀ k : String, k ≠ key →
          rest.count k = (if (aget st.roleMap k).isSome then 1 else 0) := by
        intro k hk
        have := hcount k
        rwa [hqq, List.count_cons_of_ne hk] at this
      cases hqmem : q.mem with
      | none =>
        have hb : workerBegin st
            = { st with roleQueue := rest, roleMap := adel st.roleMap key } := by
          simp [workerBegin, hc, hw, hqq, hget, hqmem]
        have hf : workerFinish success
              { st with roleQueue := rest, roleMap := adel st.roleMap key }
            = { st with roleQueue := rest, roleMap := adel st.roleMap key } := by
          simp [workerFinish, hw]
        simp only [stepC, hb, hf]
        refine ⟨by simpa using hw, by simpa using hc, ?_⟩
        intro k
        by_cases hk : k = key
        · subst hk
          simp [hrest0, aget_adel_self]
        · simp [aget_adel_ne _ _ _ hk, hother k hk]
      | some mem =>
        have hb : workerBegin st
            = { st with
                roleQueue := rest, roleMap := adel st.roleMap key,
                worker := .inflight key q mem ((memRoles st mem ∪ q.toAdd) \ q.toRemove),
                editCalls := st.editCalls
                  ++ [(mem, (memRoles st mem ∪ q.toAdd) \ q.toRemove)] } := by
          simp [workerBegin, hc, hw, hqq, hget, hqmem]
        cases success with
        | true =>
          simp only [stepC, hb, workerFinish]
          refine ⟨rfl, by simpa using hc, ?_⟩
          intro k
          by_cases hk : k = key
          · subst hk
            simp [hrest0, aget_adel_self]
          · simp [aget_adel_ne _ _ _ hk, hother k hk]
        | false =>
          simp only [stepC, hb, workerFinish]
          refine ⟨rfl, by simpa using hc, ?_⟩
          intro k
          by_cases hk : k = key
          · subst hk
            simp [List.count_append, hrest0, aget_aset_self]
          · simp [List.count_append, aget_aset_ne _ _ _ _ hk, aget_adel_ne _ _ _ hk,
              hother k hk, List.count_cons_of_ne hk, List.count_nil]

theorem queueInv_runC (cacts : List CAct) :
    ∀ (st : SysState), queueInv st → queueInv (runC cacts st) := by
  induction cacts with
  | nil => intro st h; exact h
  | cons a t ih =>
    intro st h
    exact ih (stepC st a) (queueInv_stepC a st h)

/-- Claim C5, counterexample to the literal statement: enqueue for
member (1, 2); the worker dequeues the key and suspends in the edit
call; a second enqueue for the same key arrives, recreates the delta
and re-pushes the key; the edit then fails, so the worker re-stores the
old delta and pushes the key again — the key is now in the dispatch
queue twice while its delta is unprocessed. -/
theorem c5_queue_once_counterexample :
    (run [Act.enq mW 5 true ∅, Act.wBegin, Act.enq mW 6 true ∅, Act.wFinish false]
        (initState pfW)).roleQueue = ["1_2", "1_2"]
    ∧ (aget (run [Act.enq mW 5 true ∅, Act.wBegin, Act.enq mW 6 true ∅, Act.wFinish false]
        (initState pfW)).roleMap "1_2").isSome = true
    ∧ (run [Act.enq mW 5 true ∅, Act.wBegin, Act.enq mW 6 true ∅, Act.wFinish false]
        (initState pfW)).roleQueue.count "1_2" = 2 := by
  decide

/-- Claim C5 (amended): along every trace in which no `add_role_queue`
call interleaves with an in-progress worker iteration (each iteration's
dequeue and edit outcome happen back to back), every key is present in
the dispatch queue at most once — exactly once when its delta is
pending in the map and never otherwise, so a key is pushed only when
its delta is created or re-stored after a failed edit. -/
theorem c5_queue_once_amended (cacts : List CAct) (pf : List ((Nat × Nat) × Finset Nat))
    (k : String) :
    (runC cacts (initState pf)).roleQueue.count k ≤ 1
    ∧ (runC cacts (initState pf)).roleQueue.count k
      = (if (aget (runC cacts (initState pf)).roleMap k).isSome then 1 else 0) := by
  have h0 : queueInv (initState pf) := by
    refine ⟨rfl, rfl, ?_⟩
    intro k
    simp [initState, aget]
  have h := queueInv_runC cacts (initState pf) h0
  refine ⟨?_, h.2.2 k⟩
  rw [h.2.2 k]
  split <;> omega

/-! ### Missing-subject drop (C7) -/

/-- Claim C7, counterexample to the literal statement: when the worker
dequeues a key whose delta has no member, it makes no mutator call and
does not re-queue the key, but it writes no log line at all — the drop
is not logged at warning level (the iteration contains no logging
call). -/
theorem c7_drop_counterexample :
    stMissing.roleQueue = ["1_2"]
    ∧ aget stMissing.roleMap "1_2" = some { toAdd := ∅, toRemove := {0}, mem := none }
    ∧ stMissing.logs = []
    ∧ (workerBegin stMissing).editCalls = []
    ∧ (workerBegin stMissing).roleQueue = []
    ∧ (workerBegin stMissing).logs = [] := by
  decide

/-- Claim C7 (amended): when the worker dequeues a key whose delta has
no stored member (the subject is not resolvable), it makes no
membership-mutator call for that key, does not re-queue the key, and
writes nothing to the log. -/
theorem c7_drop_missing_subject (st : SysState) (key : String) (rest : List String)
    (q : RoleDelta) (hc : st.workerCrashed = false) (hw : st.worker = WorkerPhase.idle)
    (hqueue : st.roleQueue = key :: rest) (hget : aget st.roleMap key = some q)
    (hmem : q.mem = none) :
    workerBegin st = { st with roleQueue := rest, roleMap := adel st.roleMap key }
    ∧ (workerBegin st).editCalls = st.editCalls
    ∧ (workerBegin st).roleQueue = rest
    ∧ (workerBegin st).logs = st.logs := by
  have hb : workerBegin st = { st with roleQueue := rest, roleMap := adel st.roleMap key } := by
    simp [workerBegin, hc, hw, hqueue, hget, hmem]
  exact ⟨hb, by simp [hb], by simp [hb], by simp [hb]⟩

/-- Witness for the amended C7 at a concrete input. -/
theorem c7_drop_missing_subject_witness :
    (workerBegin stMissing).editCalls = stMissing.editCalls
    ∧ (workerBegin stMissing).roleQueue = []
    ∧ (workerBegin stMissing).logs = stMissing.logs :=
  (c7_drop_missing_subject stMissing "1_2" [] { toAdd := ∅, toRemove := {0}, mem := none }
    (by decide) (by decide) (by decide) (by decide) (by decide)).2

/-! ### Handler boundary (C9) -/

theorem addRoleQueueCore_crash (m : Member) (role : Nat) (addBool : Bool)
    (linked : Finset Nat) (st : SysState) :
    (addRoleQueueCore m role addBool linked st).workerCrashed = st.workerCrashed := by
  simp only [addRoleQueueCore]
  cases aget st.roleMap (keyOf m) <;> rfl

theorem checkAddRole_ok (em : Emoji) (mi ci ui : Nat) (st : SysState) :
    ∃ s, checkAddRole em mi ci ui st = .ok s ∧ s.workerCrashed = st.workerCrashed := by
  cases hmsg : getFromMessageCache ci mi st with
  | none => exact ⟨st, by simp [checkAddRole, hmsg], rfl⟩
  | some message =>
    cases hm : getMember message.guild ui st with
    | none =>
      cases hr : getFromCache message.guild.id ci mi (emojiStr em) st with
      | none => exact ⟨st, by simp [checkAddRole, hmsg, hm, hr], rfl⟩
      | some r => exact ⟨st, by simp [checkAddRole, hmsg, hm, hr], rfl⟩
    | some m =>
      cases hr : getFromCache message.guild.id ci mi (emojiStr em) st with
      | none => exact ⟨st, by simp [checkAddRole, hmsg, hm, hr], rfl⟩
      | some r =>
        by_cases hid : m.id ≠ message.guild.meId
        · exact ⟨addRoleQueueCore m r true (getLink message.guild.id ci mi st) st,
            by simp [checkAddRole, hmsg, hm, hr, hid, addRoleQueue],
            addRoleQueueCore_crash m r true _ st⟩
        · exact ⟨st, by simp [checkAddRole, hmsg, hm, hr, hid], rfl⟩

theorem checkRemoveRole_ok_crash (em : Emoji) (mi ci ui : Nat) (st : SysState) :
    ∀ s, checkRemoveRole em mi ci ui st = .ok s → s.workerCrashed = st.workerCrashed := by
  intro s hs
  cases hmsg : getFromMessageCache ci mi st with
  | none =>
    simp only [checkRemoveRole, hmsg, Except.ok.injEq] at hs
    subst hs
    rfl
  | some message =>
    by_cases hui : ui = message.guild.meId
    · simp only [checkRemoveRole, hmsg, hui, if_true, Except.ok.injEq] at hs
      subst hs
      rfl
    · cases hm : getMember message.guild ui st with
      | none =>
        cases hr : getFromCache message.guild.id ci mi (emojiStr em) st with
        | none =>
          simp only [checkRemoveRole, hmsg, hui, if_false, hm, hr, Except.ok.injEq] at hs
          subst hs
          rfl
        | some r =>
          simp [checkRemoveRole, hmsg, hui, hm, hr, addRoleQueue] at hs
      | some m =>
        cases hr : getFromCache message.guild.id ci mi (emojiStr em) st with
        | none =>
          simp only [checkRemoveRole, hmsg, hui, if_false, hm, hr, Except.ok.injEq] at hs
          subst hs
          rfl
        | some r =>
          simp only [checkRemoveRole, hmsg, hui, if_false, hm, hr, addRoleQueue,
            Except.ok.injEq] at hs
          subst hs
          exact addRoleQueueCore_crash m r false ∅ st

/-- Claim C9: every exception raised while handling a reaction event is
caught at the handler boundary and recorded as a printed traceback with
the rest of the state untouched; the add path in fact never raises, the
handlers never propagate an error, and neither handler can crash the
worker loop. -/
theorem c9_handler_boundary (em : Emoji) (mi ci ui : Nat) (st : SysState) :
    (∃ s, checkAddRole em mi ci ui st = .ok s ∧ onRawReactionAdd em mi ci ui st = s)
    ∧ (∀ e, checkRemoveRole em mi ci ui st = .error e →
        onRawReactionRemove em mi ci ui st
          = { st with tracebacks := st.tracebacks ++ [e] })
    ∧ (∀ s, checkRemoveRole em mi ci ui st = .ok s → onRawReactionRemove em mi ci ui st = s)
    ∧ (onRawReactionAdd em mi ci ui st).workerCrashed = st.workerCrashed
    ∧ (onRawReactionRemove em mi ci ui st).workerCrashed = st.workerCrashed := by
  obtain ⟨s, hs, hcr⟩ := checkAddRole_ok em mi ci ui st
  refine ⟨⟨s, hs, by simp [onRawReactionAdd, hs]⟩, ?_, ?_, ?_, ?_⟩
  · intro e he
    simp [onRawReactionRemove, he]
  · intro s2 hs2
    simp [onRawReactionRemove, hs2]
  · simp [onRawReactionAdd, hs, hcr]
  · cases hrem : checkRemoveRole em mi ci ui st with
    | ok s2 =>
      simp only [onRawReactionRemove, hrem]
      exact checkRemoveRole_ok_crash em mi ci ui st s2 hrem
    | error e =>
      simp [onRawReactionRemove, hrem]

/-- Witness for C9 at a concrete erroring input: the remove path raises
`AttributeError` (unresolvable member with a bound role), and the
handler absorbs it into a printed traceback. -/
theorem c9_handler_boundary_witness :
    onRawReactionRemove emW 20 10 3 stErr
      = { stErr with tracebacks := stErr.tracebacks ++ [PyErr.attributeError] } :=
  (c9_handler_boundary emW 20 10 3 stErr).2.1 PyErr.attributeError (by rfl)

/-! ### Bot reaction re-add (C10) -/

/-- Claim C10: when a reaction-remove event's user is the bot itself on
a cached reaction-role message, the handler re-adds the removed
reaction to that message and enqueues no role delta — the delta map and
the dispatch queue are unchanged. -/
theorem c10_bot_reaction_readd (em : Emoji) (mi ci ui : Nat) (st : SysState)
    (msg : Message) (hmsg : getFromMessageCache ci mi st = some msg)
    (hui : ui = msg.guild.meId) :
    onRawReactionRemove em mi ci ui st
      = { st with reactionCalls := st.reactionCalls ++ [(msg.channelId, msg.id, em)] }
    ∧ (onRawReactionRemove em mi ci ui st).roleMap = st.roleMap
    ∧ (onRawReactionRemove em mi ci ui st).roleQueue = st.roleQueue := by
  have h : checkRemoveRole em mi ci ui st
      = .ok { st with reactionCalls := st.reactionCalls ++ [(msg.channelId, msg.id, em)] } := by
    simp [checkRemoveRole, hmsg, hui]
  refine ⟨?_, ?_, ?_⟩ <;> simp [onRawReactionRemove, h]

/-- Witness for C10 at a concrete input. -/
theorem c10_bot_reaction_readd_witness :
    onRawReactionRemove emW 20 10 99 stMsg
      = { stMsg with reactionCalls := stMsg.reactionCalls ++ [(msgW.channelId, msgW.id, emW)] } :=
  (c10_bot_reaction_readd emW 20 10 99 stMsg msgW (by decide) (by decide)).1

end ReactRoles
